import Mathlib

/-!
Verification of the `pi-sandbox` extension (repository `jasonish/pi-extensions`).

The development shallowly embeds the access-control core of the extension:

* sandbox modes and their normalization from the `--sandbox-mode` flag;
* the mode-advance (ctrl+x) cycle;
* POSIX path arithmetic (`relative`, `resolve`, membership in a root);
* `canonicalizePossiblyMissingPath` over an abstract file system;
* the `tool_call` interception handler for the `write` and `edit` tools;
* the `bash` tool override together with `buildBwrapCommand`;
* the session-start computation of `extraWritableDirs` from git metadata.

Absolute POSIX paths are represented as lists of path segments (the absolute
path `/a/b` is `["a", "b"]`, the file system root `/` is `[]`).  JavaScript
strings are represented as Lean `String`s; the JavaScript string operations
used by the source (`startsWith`, `slice`, `trim`, `toLowerCase`, `split`,
`replace`, `join`) are modelled by structurally recursive functions over
`String.data` so that every definition evaluates on concrete inputs.
-/

/-- Absolute POSIX path, as the list of its segments. -/
abbrev FsPath := List String

/-- The three user-facing sandbox modes of the extension. -/
inductive SandboxMode where
  | readOnly
  | readWrite
  | yolo
deriving DecidableEq, Repr

/-- Model of the JavaScript `s.startsWith(p)`. -/
def strStartsWith (s p : String) : Bool :=
  p.data.isPrefixOf s.data

/-- Model of the JavaScript `s.slice(n)` (drop the first `n` characters). -/
def strDrop (s : String) (n : Nat) : String :=
  String.mk (s.data.drop n)

/-- Model of the JavaScript `s.trim()`. -/
def trimStr (s : String) : String :=
  String.mk (((s.data.dropWhile Char.isWhitespace).reverse.dropWhile
    Char.isWhitespace).reverse)

/-- Model of the JavaScript `s.toLowerCase()` (ASCII case folding). -/
def toLowerStr (s : String) : String :=
  String.mk (s.data.map Char.toLower)

/-- Model of `Array.prototype.join(s)` / `path` separator joining. -/
def joinWith (sep : String) : List String → String
  | [] => ""
  | [x] => x
  | x :: y :: rest => x ++ sep ++ joinWith sep (y :: rest)

/-- Source `normalizeMode`: trims and lowercases the input and accepts the
spellings `read-only`/`readonly`/`ro`, `read-write`/`readwrite`/`rw` and
`yolo`; empty or missing input and every other spelling yield `none`. -/
def normalizeMode (input : Option String) : Option SandboxMode :=
  match input with
  | none => none
  | some i =>
    if i = "" then none
    else
      let s := toLowerStr (trimStr i)
      if s = "read-only" ∨ s = "readonly" ∨ s = "ro" then some SandboxMode.readOnly
      else if s = "read-write" ∨ s = "readwrite" ∨ s = "rw" then some SandboxMode.readWrite
      else if s = "yolo" then some SandboxMode.yolo
      else none

/-- Startup mode: `mode` is initialized to `read-write` and overwritten by the
`--sandbox-mode` flag only when `normalizeMode` accepts the flag's value. -/
def initialModeFromFlag (flag : Option String) : SandboxMode :=
  match normalizeMode flag with
  | some m => m
  | none => SandboxMode.readWrite

/-- The ctrl+x shortcut's mode-advance step:
`read-only → read-write → yolo → read-only`. -/
def advanceMode : SandboxMode → SandboxMode
  | SandboxMode.readOnly => SandboxMode.readWrite
  | SandboxMode.readWrite => SandboxMode.yolo
  | SandboxMode.yolo => SandboxMode.readOnly

/-- The extension-level mutable state relevant to mode changes. -/
structure SandboxState where
  mode : SandboxMode
  rootDir : String
  rootDirReal : FsPath
  extraWritableDirs : List FsPath
deriving DecidableEq, Repr

/-- Source `setMode`: only the mode field is assigned. -/
def setMode (st : SandboxState) (next : SandboxMode) : SandboxState :=
  { st with mode := next }

/-- The ctrl+x handler: advance the mode, touching nothing else. -/
def cycleMode (st : SandboxState) : SandboxState :=
  setMode st (advanceMode st.mode)

/-- C9: the mode-advance operation is cyclic — read-only maps to read-write,
read-write to yolo, and yolo to read-only — so three consecutive advances from
any mode return to the original state, and advancing the mode never modifies
`rootDir`, its canonical form `rootDirReal`, or `extraWritableDirs`. -/
theorem claim_C9 (st : SandboxState) :
    advanceMode SandboxMode.readOnly = SandboxMode.readWrite ∧
    advanceMode SandboxMode.readWrite = SandboxMode.yolo ∧
    advanceMode SandboxMode.yolo = SandboxMode.readOnly ∧
    cycleMode (cycleMode (cycleMode st)) = st ∧
    (cycleMode st).rootDir = st.rootDir ∧
    (cycleMode st).rootDirReal = st.rootDirReal ∧
    (cycleMode st).extraWritableDirs = st.extraWritableDirs := by
  obtain ⟨m, rd, rdr, ex⟩ := st
  cases m <;> simp [cycleMode, setMode, advanceMode]

/-- C10: at startup the mode defaults to `read-write`; the `--sandbox-mode`
flag overrides it exactly when its trimmed, lowercased value is one of the
accepted spellings, and any other flag value leaves the default in place. -/
theorem claim_C10 :
    initialModeFromFlag none = SandboxMode.readWrite ∧
    (∀ s : String, normalizeMode (some s) = none →
      initialModeFromFlag (some s) = SandboxMode.readWrite) ∧
    (∀ (s : String) (m : SandboxMode), normalizeMode (some s) = some m →
      initialModeFromFlag (some s) = m) ∧
    (∀ s : String, s ≠ "" →
      ((normalizeMode (some s) = some SandboxMode.readOnly ↔
        toLowerStr (trimStr s) = "read-only" ∨ toLowerStr (trimStr s) = "readonly" ∨
          toLowerStr (trimStr s) = "ro") ∧
       (normalizeMode (some s) = some SandboxMode.readWrite ↔
        toLowerStr (trimStr s) = "read-write" ∨ toLowerStr (trimStr s) = "readwrite" ∨
          toLowerStr (trimStr s) = "rw") ∧
       (normalizeMode (some s) = some SandboxMode.yolo ↔
        toLowerStr (trimStr s) = "yolo"))) := by
  refine ⟨rfl, ?_, ?_, ?_⟩
  · intro s h
    simp [initialModeFromFlag, h]
  · intro s m h
    simp [initialModeFromFlag, h]
  · intro s hs
    have hnorm : normalizeMode (some s) =
        (if toLowerStr (trimStr s) = "read-only" ∨ toLowerStr (trimStr s) = "readonly" ∨
            toLowerStr (trimStr s) = "ro" then some SandboxMode.readOnly
         else if toLowerStr (trimStr s) = "read-write" ∨ toLowerStr (trimStr s) = "readwrite" ∨
            toLowerStr (trimStr s) = "rw" then some SandboxMode.readWrite
         else if toLowerStr (trimStr s) = "yolo" then some SandboxMode.yolo
         else none) := by
      simp only [normalizeMode, if_neg hs]
    rw [hnorm]
    generalize toLowerStr (trimStr s) = t
    refine ⟨?_, ?_, ?_⟩
    · constructor
      · intro h
        by_contra hc
        rw [if_neg hc] at h
        split at h <;> simp at h
      · intro h
        rw [if_pos h]
    · constructor
      · intro h
        rcases Decidable.em (t = "read-only" ∨ t = "readonly" ∨ t = "ro") with h1 | h1
        · rw [if_pos h1] at h
          simp at h
        · rw [if_neg h1] at h
          by_contra hc
          rw [if_neg hc] at h
          split at h <;> simp at h
      · intro h
        have h1 : ¬(t = "read-only" ∨ t = "readonly" ∨ t = "ro") := by
          rcases h with h | h | h <;> subst h <;> decide
        rw [if_neg h1, if_pos h]
    · constructor
      · intro h
        rcases Decidable.em (t = "read-only" ∨ t = "readonly" ∨ t = "ro") with h1 | h1
        · rw [if_pos h1] at h
          simp at h
        · rw [if_neg h1] at h
          rcases Decidable.em (t = "read-write" ∨ t = "readwrite" ∨ t = "rw") with h2 | h2
          · rw [if_pos h2] at h
            simp at h
          · rw [if_neg h2] at h
            by_contra hc
            rw [if_neg hc] at h
            simp at h
      · intro h
        have h1 : ¬(t = "read-only" ∨ t = "readonly" ∨ t = "ro") := by
          subst h
          decide
        have h2 : ¬(t = "read-write" ∨ t = "readwrite" ∨ t = "rw") := by
          subst h
          decide
        rw [if_neg h1, if_neg h2, if_pos h]

/-- Witness for C10 at concrete flag values. -/
theorem claim_C10_witness :
    initialModeFromFlag (some "bogus") = SandboxMode.readWrite ∧
    initialModeFromFlag (some " RO ") = SandboxMode.readOnly ∧
    normalizeMode (some "YOLO") = some SandboxMode.yolo :=
  ⟨claim_C10.2.1 "bogus" (by decide),
   claim_C10.2.2.1 " RO " SandboxMode.readOnly (by decide),
   ((claim_C10.2.2.2 "YOLO" (by decide)).2.2).mpr (by decide)⟩

/-- Character-level model of `s.replace(/'/g, "'\\''")`: every single quote is
replaced by the four-character sequence quote, backslash, quote, quote. -/
def escQuoteChars : List Char → List Char
  | [] => []
  | c :: cs =>
    if c = '\'' then '\'' :: '\\' :: '\'' :: '\'' :: escQuoteChars cs
    else c :: escQuoteChars cs

/-- Source `shellEscapeSingle`: wrap in single quotes, escaping embedded
single quotes with the standard quote-backslash-quote-quote technique. -/
def shellEscapeSingle (s : String) : String :=
  String.mk ('\'' :: (escQuoteChars s.data ++ ['\'']))

/-- Source `buildBwrapCommand`: the bwrap invocation assembled as an argument
list and joined into a single host-shell string.  Returns `""` when no trusted
bwrap path was found.  String parameters `rootDirReal`, `cwd` carry the same
rendered path strings the source holds. -/
def buildBwrapCommand (bwrapPath : Option String) (mode : SandboxMode)
    (rootDirReal : String) (extraWritableDirs : List String) (cwd : String)
    (userCommand : String) : String :=
  match bwrapPath with
  | none => ""
  | some bp =>
    let args : List String :=
      [bp, "--die-with-parent", "--proc", "/proc",
       "--ro-bind", "/", "/",
       "--tmpfs", "/dev",
       "--dev-bind", "/dev/null", "/dev/null",
       "--dev-bind", "/dev/zero", "/dev/zero",
       "--dev-bind", "/dev/random", "/dev/random",
       "--dev-bind", "/dev/urandom", "/dev/urandom",
       "--dev-bind", "/dev/tty", "/dev/tty",
       "--symlink", "/proc/self/fd", "/dev/fd",
       "--symlink", "/proc/self/fd/0", "/dev/stdin",
       "--symlink", "/proc/self/fd/1", "/dev/stdout",
       "--symlink", "/proc/self/fd/2", "/dev/stderr",
       "--chdir", cwd] ++
      (if mode = SandboxMode.readWrite then
        ["--bind", rootDirReal, rootDirReal] ++
        (extraWritableDirs.map (fun d => ["--bind", d, d])).flatten ++
        ["--bind", "/tmp", "/tmp"]
      else []) ++
      ["--", "bash", "-c", userCommand]
    joinWith " " (args.map shellEscapeSingle)

/-- Outcome of the overridden `bash` tool: either a blocked text result (the
underlying bash implementation is never invoked) or delegation of a command
string to the underlying bash implementation. -/
inductive BashAction where
  | blocked (msg : String)
  | delegate (command : String)
deriving DecidableEq, Repr

/-- The explanatory text returned when bwrap is unavailable outside yolo. -/
def blockedBwrapMessage : String :=
  "Blocked bash command: bubblewrap (bwrap) is not available, so pi-sandbox cannot safely sandbox bash.\n\n" ++
  "Install bubblewrap (bwrap) or switch to /sandbox-mode yolo (not recommended)."

/-- The `execute` override of the sandboxed `bash` tool: outside yolo it
blocks when bwrap is unavailable and otherwise delegates the bwrap-wrapped
command; in yolo it delegates the user's command as-is. -/
def bashExecute (mode : SandboxMode) (bwrapPath : Option String)
    (rootDirReal : String) (extraWritableDirs : List String) (cwd : String)
    (command : String) : BashAction :=
  if mode ≠ SandboxMode.yolo then
    match bwrapPath with
    | none => BashAction.blocked blockedBwrapMessage
    | some bp =>
      BashAction.delegate
        (buildBwrapCommand (some bp) mode rootDirReal extraWritableDirs cwd command)
  else BashAction.delegate command

/-- C2: outside yolo mode, when no trusted bwrap executable was found
(`bwrapPath` is `none`), the sandboxed bash tool never delegates the user's
command to the underlying bash implementation: it returns the explanatory
blocked message instead. -/
theorem claim_C2 (mode : SandboxMode) (rootDirReal : String)
    (extraWritableDirs : List String) (cwd command : String)
    (h : mode ≠ SandboxMode.yolo) :
    bashExecute mode none rootDirReal extraWritableDirs cwd command =
      BashAction.blocked blockedBwrapMessage ∧
    ∀ c, bashExecute mode none rootDirReal extraWritableDirs cwd command ≠
      BashAction.delegate c := by
  constructor
  · simp [bashExecute, h]
  · intro c
    simp [bashExecute, h]

/-- Witness for C2 in read-only mode with a concrete command. -/
theorem claim_C2_witness :
    bashExecute SandboxMode.readOnly none "/root" [] "/root" "ls" =
      BashAction.blocked blockedBwrapMessage :=
  (claim_C2 SandboxMode.readOnly "/root" [] "/root" "ls" (by decide)).1

/-- C7: with bwrap available and mode read-write, `buildBwrapCommand` emits
exactly the documented argument sequence — read-only bind of the whole
filesystem onto itself, a tmpfs `/dev` with the fixed device nodes and
standard-stream symlinks, `--chdir` to the working directory, read-write
binds for the root, each extra writable directory, and `/tmp`, terminated by
`-- bash -c <user command>` — with every token shell-escaped as a
single-quoted token and the tokens joined by single spaces. -/
theorem claim_C7 (bp rootDirReal cwd userCommand : String)
    (extraWritableDirs : List String) :
    buildBwrapCommand (some bp) SandboxMode.readWrite rootDirReal
        extraWritableDirs cwd userCommand =
      joinWith " "
        (([bp, "--die-with-parent", "--proc", "/proc",
           "--ro-bind", "/", "/",
           "--tmpfs", "/dev",
           "--dev-bind", "/dev/null", "/dev/null",
           "--dev-bind", "/dev/zero", "/dev/zero",
           "--dev-bind", "/dev/random", "/dev/random",
           "--dev-bind", "/dev/urandom", "/dev/urandom",
           "--dev-bind", "/dev/tty", "/dev/tty",
           "--symlink", "/proc/self/fd", "/dev/fd",
           "--symlink", "/proc/self/fd/0", "/dev/stdin",
           "--symlink", "/proc/self/fd/1", "/dev/stdout",
           "--symlink", "/proc/self/fd/2", "/dev/stderr",
           "--chdir", cwd,
           "--bind", rootDirReal, rootDirReal] ++
          (extraWritableDirs.map (fun d => ["--bind", d, d])).flatten ++
          ["--bind", "/tmp", "/tmp",
           "--", "bash", "-c", userCommand]).map shellEscapeSingle) := by
  simp [buildBwrapCommand]

/-- Length of the common leading segment run of two paths; this is the pivot
of the POSIX `path.relative` computation. -/
def commonPrefixLen : FsPath → FsPath → Nat
  | a :: as, b :: bs => if a = b then commonPrefixLen as bs + 1 else 0
  | _, _ => 0

/-- Segment-level model of POSIX `path.relative(fromP, toP)` on canonical
absolute paths: climb out of the non-shared part of `fromP` with `..`
segments, then descend into the non-shared part of `toP`. -/
def relativeSegs (fromP toP : FsPath) : List String :=
  List.replicate (fromP.length - commonPrefixLen fromP toP) ".." ++
    toP.drop (commonPrefixLen fromP toP)

/-- The string `path.relative` returns: the relative segments joined by the
path separator. -/
def relativeStr (fromP toP : FsPath) : String :=
  joinWith "/" (relativeSegs fromP toP)

/-- Model of POSIX `isAbsolute` on a path string. -/
def isAbsoluteStr (s : String) : Bool :=
  strStartsWith s "/"

/-- Source `isPathInsideRoot`: the target is inside the root iff the relative
form is empty, or is neither `..`, nor starts with `../`, nor is absolute. -/
def isPathInsideRoot (rootAbs targetAbs : FsPath) : Bool :=
  let rel := relativeStr rootAbs targetAbs
  if rel = "" then true
  else if rel = ".." then false
  else if strStartsWith rel "../" then false
  else if isAbsoluteStr rel then false
  else true

theorem commonPrefixLen_le_left (a b : FsPath) : commonPrefixLen a b ≤ a.length := by
  induction a generalizing b with
  | nil => simp [commonPrefixLen]
  | cons x xs ih =>
    cases b with
    | nil => simp [commonPrefixLen]
    | cons y ys =>
      by_cases h : x = y
      · simpa [commonPrefixLen, h] using ih ys
      · simp [commonPrefixLen, h]

theorem commonPrefixLen_le_right (a b : FsPath) : commonPrefixLen a b ≤ b.length := by
  induction a generalizing b with
  | nil => simp [commonPrefixLen]
  | cons x xs ih =>
    cases b with
    | nil => simp [commonPrefixLen]
    | cons y ys =>
      by_cases h : x = y
      · simpa [commonPrefixLen, h] using ih ys
      · simp [commonPrefixLen, h]

theorem commonPrefixLen_append (a r : FsPath) :
    commonPrefixLen a (a ++ r) = a.length := by
  induction a with
  | nil => simp [commonPrefixLen]
  | cons x xs ih => simp [commonPrefixLen, ih]

theorem commonPrefixLen_self (a : FsPath) : commonPrefixLen a a = a.length := by
  simpa using commonPrefixLen_append a []

theorem eq_of_commonPrefixLen_full (a b : FsPath)
    (ha : commonPrefixLen a b = a.length) (hb : commonPrefixLen a b = b.length) :
    a = b := by
  induction a generalizing b with
  | nil =>
    cases b with
    | nil => rfl
    | cons y ys => simp [commonPrefixLen] at hb
  | cons x xs ih =>
    cases b with
    | nil => simp [commonPrefixLen] at ha
    | cons y ys =>
      by_cases h : x = y
      · subst h
        simp only [commonPrefixLen, if_pos rfl, List.length_cons,
          Nat.add_right_cancel_iff] at ha hb
        simp at ha hb
        rw [ih ys ha hb]
      · simp [commonPrefixLen, h] at ha

theorem relativeSegs_eq_nil_iff (a b : FsPath) :
    relativeSegs a b = [] ↔ a = b := by
  constructor
  · intro h
    rw [relativeSegs, List.append_eq_nil] at h
    obtain ⟨h1, h2⟩ := h
    have ha : commonPrefixLen a b = a.length := by
      have := commonPrefixLen_le_left a b
      have hz : a.length - commonPrefixLen a b = 0 := by
        by_contra hc
        rw [← List.length_replicate (a.length - commonPrefixLen a b) "..", h1] at hc
        simp at hc
      omega
    have hb : commonPrefixLen a b = b.length := by
      have := commonPrefixLen_le_right a b
      have := List.drop_eq_nil_iff.mp h2
      omega
    exact eq_of_commonPrefixLen_full a b ha hb
  · intro h
    subst h
    simp [relativeSegs, commonPrefixLen_self]

theorem relativeSegs_take (p : FsPath) (k : Nat) (hk : k ≤ p.length) :
    relativeSegs (p.take k) p = p.drop k := by
  have hsplit : p.take k ++ p.drop k = p := List.take_append_drop k p
  have hlen : (p.take k).length = k := by
    rw [List.length_take]
    omega
  have hcpl : commonPrefixLen (p.take k) p = k := by
    have h2 : commonPrefixLen (p.take k) (p.take k ++ p.drop k) =
        (p.take k).length := commonPrefixLen_append _ _
    rw [hsplit, hlen] at h2
    exact h2
  rw [relativeSegs, hcpl, hlen]
  simp

theorem relativeSegs_self (p : FsPath) : relativeSegs p p = [] :=
  (relativeSegs_eq_nil_iff p p).mpr rfl

/-- Candidate git metadata directories: the detected `gitDirReal` and
`gitCommonDirReal` (when present), keeping only those outside the sandbox
root. -/
def gitCandidates (rootDirReal : FsPath) (gitDirReal gitCommonDirReal : Option FsPath) :
    List FsPath :=
  ([gitDirReal, gitCommonDirReal].filterMap id).filter
    (fun p => !(isPathInsideRoot rootDirReal p))

/-- The nested-path de-duplication of `ensureRoot`: when one of the two git
metadata directories contains the other, the inner one is erased from the
candidate list. -/
def pruneNestedCandidates (gitDirReal gitCommonDirReal : Option FsPath)
    (candidates : List FsPath) : List FsPath :=
  match gitCommonDirReal, gitDirReal with
  | some c, some d =>
    if c ≠ d ∧ isPathInsideRoot c d = true then candidates.erase d
    else if c ≠ d ∧ isPathInsideRoot d c = true then candidates.erase c
    else candidates
  | _, _ => candidates

/-- Model of collecting the candidates through a JavaScript `Set` (insertion
order, first occurrence kept). -/
def dedupKeepFirstGo (seen : List FsPath) : List FsPath → List FsPath
  | [] => []
  | p :: rest =>
    if p ∈ seen then dedupKeepFirstGo seen rest
    else p :: dedupKeepFirstGo (p :: seen) rest

/-- Deduplicate a list keeping the first occurrence of each element. -/
def dedupKeepFirst (l : List FsPath) : List FsPath :=
  dedupKeepFirstGo [] l

/-- The final `extraWritableDirs` value produced at session start from the
detected git metadata directories. -/
def computeExtraWritableDirs (rootDirReal : FsPath)
    (gitDirReal gitCommonDirReal : Option FsPath) : List FsPath :=
  dedupKeepFirst
    (pruneNestedCandidates gitDirReal gitCommonDirReal
      (gitCandidates rootDirReal gitDirReal gitCommonDirReal))

theorem dedupKeepFirstGo_mem (l : List FsPath) :
    ∀ (seen : List FsPath) (x : FsPath), x ∈ dedupKeepFirstGo seen l →
      x ∈ l ∧ x ∉ seen := by
  induction l with
  | nil =>
    intro seen x h
    simp [dedupKeepFirstGo] at h
  | cons p rest ih =>
    intro seen x h
    simp only [dedupKeepFirstGo] at h
    by_cases hp : p ∈ seen
    · rw [if_pos hp] at h
      obtain ⟨h1, h2⟩ := ih seen x h
      exact ⟨List.mem_cons_of_mem _ h1, h2⟩
    · rw [if_neg hp] at h
      rcases List.mem_cons.mp h with h1 | h1
      · subst h1
        exact ⟨List.mem_cons_self _ _, hp⟩
      · obtain ⟨h2, h3⟩ := ih (p :: seen) x h1
        exact ⟨List.mem_cons_of_mem _ h2, fun hc => h3 (List.mem_cons_of_mem _ hc)⟩

theorem dedupKeepFirstGo_nodup (l : List FsPath) :
    ∀ seen : List FsPath, (dedupKeepFirstGo seen l).Nodup := by
  induction l with
  | nil =>
    intro seen
    simp [dedupKeepFirstGo]
  | cons p rest ih =>
    intro seen
    simp only [dedupKeepFirstGo]
    by_cases hp : p ∈ seen
    · rw [if_pos hp]
      exact ih seen
    · rw [if_neg hp]
      refine List.nodup_cons.mpr ⟨?_, ih (p :: seen)⟩
      intro hc
      exact (dedupKeepFirstGo_mem rest (p :: seen) p hc).2 (List.mem_cons_self _ _)

theorem mem_gitCandidates (root : FsPath) (gd gcd : Option FsPath) (x : FsPath)
    (h : x ∈ gitCandidates root gd gcd) :
    (gd = some x ∨ gcd = some x) ∧ isPathInsideRoot root x = false := by
  simp only [gitCandidates, List.mem_filter, List.mem_filterMap] at h
  obtain ⟨⟨o, ho, hox⟩, hpred⟩ := h
  simp only [id_eq] at hox
  subst hox
  refine ⟨?_, by simpa using hpred⟩
  rcases List.mem_cons.mp ho with h1 | h1
  · exact Or.inl h1.symm
  · rcases List.mem_cons.mp h1 with h2 | h2
    · exact Or.inr h2.symm
    · simp at h2

theorem pruneNested_subset (gd gcd : Option FsPath) (l : List FsPath) (x : FsPath)
    (h : x ∈ pruneNestedCandidates gd gcd l) : x ∈ l := by
  rcases gcd with _ | c
  · simpa [pruneNestedCandidates] using h
  rcases gd with _ | d
  · simpa [pruneNestedCandidates] using h
  simp only [pruneNestedCandidates] at h
  split_ifs at h
  · exact List.mem_of_mem_erase h
  · exact List.mem_of_mem_erase h
  · exact h

theorem gitCandidates_both (root : FsPath) (d c : FsPath) :
    gitCandidates root (some d) (some c) =
      [d, c].filter (fun p => !(isPathInsideRoot root p)) := by
  simp [gitCandidates]

theorem pruned_pairwise_key (root : FsPath) (gd gcd : Option FsPath) (a b : FsPath)
    (ha : a ∈ pruneNestedCandidates gd gcd (gitCandidates root gd gcd))
    (hb : b ∈ pruneNestedCandidates gd gcd (gitCandidates root gd gcd))
    (hab : a ≠ b) :
    isPathInsideRoot a b = false ∧ isPathInsideRoot b a = false := by
  have ha' := pruneNested_subset _ _ _ _ ha
  have hb' := pruneNested_subset _ _ _ _ hb
  have hma := mem_gitCandidates root gd gcd a ha'
  have hmb := mem_gitCandidates root gd gcd b hb'
  rcases hma.1 with hga | hca <;> rcases hmb.1 with hgb | hcb
  · rw [hga] at hgb
    exact absurd (Option.some.inj hgb) hab
  · -- gd = some a, gcd = some b
    subst hga
    subst hcb
    have hnd : (gitCandidates root (some a) (some b)).Nodup := by
      rw [gitCandidates_both]
      exact (List.nodup_cons.mpr ⟨by simpa using hab, List.nodup_singleton b⟩).filter _
    simp only [pruneNestedCandidates] at ha hb
    by_cases h1 : b ≠ a ∧ isPathInsideRoot b a = true
    · rw [if_pos h1] at ha
      exact absurd ((hnd.mem_erase_iff).mp ha).1 (by simp)
    · rw [if_neg h1] at ha hb
      by_cases h2 : b ≠ a ∧ isPathInsideRoot a b = true
      · rw [if_pos h2] at hb
        exact absurd ((hnd.mem_erase_iff).mp hb).1 (by simp)
      · have hne : b ≠ a := fun h => hab h.symm
        constructor
        · rcases Bool.eq_false_or_eq_true (isPathInsideRoot a b) with h | h
          · exact absurd ⟨hne, h⟩ h2
          · exact h
        · rcases Bool.eq_false_or_eq_true (isPathInsideRoot b a) with h | h
          · exact absurd ⟨hne, h⟩ h1
          · exact h
  · -- gcd = some a, gd = some b
    subst hca
    subst hgb
    have hnd : (gitCandidates root (some b) (some a)).Nodup := by
      rw [gitCandidates_both]
      exact (List.nodup_cons.mpr ⟨by simpa using fun h => hab h.symm,
        List.nodup_singleton a⟩).filter _
    simp only [pruneNestedCandidates] at ha hb
    by_cases h1 : a ≠ b ∧ isPathInsideRoot a b = true
    · rw [if_pos h1] at hb
      exact absurd ((hnd.mem_erase_iff).mp hb).1 (by simp)
    · rw [if_neg h1] at ha hb
      by_cases h2 : a ≠ b ∧ isPathInsideRoot b a = true
      · rw [if_pos h2] at ha
        exact absurd ((hnd.mem_erase_iff).mp ha).1 (by simp)
      · constructor
        · rcases Bool.eq_false_or_eq_true (isPathInsideRoot a b) with h | h
          · exact absurd ⟨hab, h⟩ h1
          · exact h
        · rcases Bool.eq_false_or_eq_true (isPathInsideRoot b a) with h | h
          · exact absurd ⟨hab, h⟩ h2
          · exact h
  · rw [hca] at hcb
    exact absurd (Option.some.inj hcb) hab

/-- C8: after session-start git metadata discovery, every entry of
`extraWritableDirs` lies outside the sandbox root, no entry is inside another
entry, and when one candidate metadata directory contains the other only the
outermost one is kept. -/
theorem claim_C8 (root : FsPath) (gd gcd : Option FsPath) :
    (∀ e ∈ computeExtraWritableDirs root gd gcd, isPathInsideRoot root e = false) ∧
    List.Pairwise
      (fun a b => isPathInsideRoot a b = false ∧ isPathInsideRoot b a = false)
      (computeExtraWritableDirs root gd gcd) ∧
    (∀ c d, gcd = some c → gd = some d → c ≠ d →
      isPathInsideRoot root c = false → isPathInsideRoot root d = false →
      isPathInsideRoot c d = true →
      computeExtraWritableDirs root gd gcd = [c]) := by
  refine ⟨?_, ?_, ?_⟩
  · intro e he
    have h1 := (dedupKeepFirstGo_mem _ _ _ he).1
    have h2 := pruneNested_subset _ _ _ _ h1
    exact (mem_gitCandidates root gd gcd e h2).2
  · have hnd : (computeExtraWritableDirs root gd gcd).Nodup :=
      dedupKeepFirstGo_nodup _ _
    refine List.Pairwise.imp_of_mem ?_ hnd
    intro a b hma hmb hne
    have ha := (dedupKeepFirstGo_mem _ _ _ hma).1
    have hb := (dedupKeepFirstGo_mem _ _ _ hmb).1
    exact pruned_pairwise_key root gd gcd a b ha hb hne
  · intro c d hgcd hgd hne hc hd hin
    subst hgcd
    subst hgd
    have hcand : gitCandidates root (some d) (some c) = [d, c] := by
      rw [gitCandidates_both]
      simp [hc, hd]
    have hprune :
        pruneNestedCandidates (some d) (some c) [d, c] = [c] := by
      simp only [pruneNestedCandidates]
      rw [if_pos ⟨hne, hin⟩]
      simp [List.erase_cons]
    simp only [computeExtraWritableDirs, hcand, hprune]
    simp [dedupKeepFirst, dedupKeepFirstGo]

/-- Witness for C8: an outer metadata directory and a nested worktree
directory, both outside the root — only the outer one is kept. -/
theorem claim_C8_witness :
    computeExtraWritableDirs ["r"] (some ["a", "w", "x"]) (some ["a"]) =
      [["a"]] :=
  (claim_C8 ["r"] (some ["a", "w", "x"]) (some ["a"])).2.2 ["a"] ["a", "w", "x"]
    rfl rfl (by decide) (by decide) (by decide) (by decide)

/-- Abstract file system seen by `canonicalizePossiblyMissingPath`: `statOk`
tells whether `stat` succeeds on a path (false covers both a missing path and
a permission error, which both throw in the source), and `realpathOf` is the
symlink resolution, `none` when `realpath` throws. -/
structure FS where
  statOk : FsPath → Bool
  realpathOf : FsPath → Option FsPath

/-- The try-block of the canonicalization loop body: `stat` then `realpath`;
`none` means the body threw and the loop walks up to the parent. -/
def fsOk (fs : FS) (p : FsPath) : Option FsPath :=
  if fs.statOk p then fs.realpathOf p else none

/-- Segment-level model of POSIX `resolve(base, rel)` for an absolute `base`
and relative `rel`: apply the relative segments, popping on `..`. -/
def resolveSegs (base : FsPath) (rel : List String) : FsPath :=
  rel.foldl
    (fun acc seg =>
      if seg = ".." then acc.dropLast
      else if seg = "." then acc
      else acc ++ [seg]) base

/-- One iteration of the canonicalization loop at position `cur`: on success
return the canonicalized path (real path of `cur` with the remainder
re-appended), on failure signal that the loop must continue at the parent. -/
def canonStep (fs : FS) (absPath cur : FsPath) : Option FsPath :=
  match fsOk fs cur with
  | some realCur =>
    some
      (if relativeSegs cur absPath = [] then realCur
       else resolveSegs realCur (relativeSegs cur absPath))
  | none => none

/-- The canonicalization loop, indexed by the length of the current prefix:
`canonFrom fs absPath n` is the loop started at `cur = absPath.take n` (the
iterates of `dirname`, i.e. `dropLast`, from `absPath` are exactly its
prefixes).  At the file system root (`n = 0`) `dirname` is a fixpoint and the
source returns `absPath` unchanged on failure. -/
def canonFrom (fs : FS) (absPath : FsPath) : Nat → FsPath
  | 0 => (canonStep fs absPath (absPath.take 0)).getD absPath
  | n + 1 =>
    match canonStep fs absPath (absPath.take (n + 1)) with
    | some r => r
    | none => canonFrom fs absPath n

/-- Source `canonicalizePossiblyMissingPath`: start the walk at the full
path. -/
def canonicalizePossiblyMissingPath (fs : FS) (absPath : FsPath) : FsPath :=
  canonFrom fs absPath absPath.length

theorem canonFrom_of_step_some (fs : FS) (p : FsPath) (k : Nat) (v : FsPath)
    (h : canonStep fs p (p.take k) = some v) : canonFrom fs p k = v := by
  cases k with
  | zero =>
    simp only [canonFrom, h, Option.getD_some]
  | succ n =>
    simp only [canonFrom, h]

theorem canonFrom_zero_of_step_none (fs : FS) (p : FsPath)
    (h : canonStep fs p (p.take 0) = none) : canonFrom fs p 0 = p := by
  simp only [canonFrom, h, Option.getD_none]

theorem canonFrom_succ_of_step_none (fs : FS) (p : FsPath) (n : Nat)
    (h : canonStep fs p (p.take (n + 1)) = none) :
    canonFrom fs p (n + 1) = canonFrom fs p n := by
  simp only [canonFrom, h]

theorem canonStep_none (fs : FS) (p cur : FsPath) (h : fsOk fs cur = none) :
    canonStep fs p cur = none := by
  simp only [canonStep, h]

/-- C6: the canonicalization is total (it is a function, defined for every
abstract file system, including ones where every probe fails): when the full
path is accessible it returns its real path; when only a proper prefix is
accessible it canonicalizes the nearest accessible ancestor and re-appends
the non-existent remainder; when no ancestor (including the file system root)
is accessible it returns the input unchanged. -/
theorem claim_C6 (fs : FS) (absPath : FsPath) :
    (∀ r, fsOk fs absPath = some r →
      canonicalizePossiblyMissingPath fs absPath = r) ∧
    ((∀ k, k ≤ absPath.length → fsOk fs (absPath.take k) = none) →
      canonicalizePossiblyMissingPath fs absPath = absPath) ∧
    (∀ k r, k < absPath.length → fsOk fs (absPath.take k) = some r →
      (∀ j, k < j → j ≤ absPath.length → fsOk fs (absPath.take j) = none) →
      canonicalizePossiblyMissingPath fs absPath =
        resolveSegs r (absPath.drop k)) := by
  refine ⟨?_, ?_, ?_⟩
  · intro r h
    have hstep : canonStep fs absPath (absPath.take absPath.length) = some r := by
      rw [List.take_length]
      simp [canonStep, h, relativeSegs_self]
    exact canonFrom_of_step_some fs absPath absPath.length r hstep
  · intro h
    have aux : ∀ m, m ≤ absPath.length → canonFrom fs absPath m = absPath := by
      intro m
      induction m with
      | zero =>
        intro _
        exact canonFrom_zero_of_step_none fs absPath
          (canonStep_none fs absPath _ (h 0 (Nat.zero_le _)))
      | succ n ih =>
        intro hm
        rw [canonFrom_succ_of_step_none fs absPath n
          (canonStep_none fs absPath _ (h (n + 1) hm))]
        exact ih (Nat.le_of_succ_le hm)
    exact aux absPath.length le_rfl
  · intro k r hk hok habove
    have hrel : relativeSegs (absPath.take k) absPath = absPath.drop k :=
      relativeSegs_take absPath k (Nat.le_of_lt hk)
    have hne : absPath.drop k ≠ [] := by
      intro hc
      have := List.drop_eq_nil_iff.mp hc
      omega
    have hstep : canonStep fs absPath (absPath.take k) =
        some (resolveSegs r (absPath.drop k)) := by
      simp only [canonStep, hok, hrel, if_neg hne]
    have base : canonFrom fs absPath k = resolveSegs r (absPath.drop k) :=
      canonFrom_of_step_some fs absPath k _ hstep
    have aux : ∀ m, k ≤ m → m ≤ absPath.length →
        canonFrom fs absPath m = resolveSegs r (absPath.drop k) := by
      intro m hkm
      induction m, hkm using Nat.le_induction with
      | base =>
        intro _
        exact base
      | succ n hn ih =>
        intro hlen
        rw [canonFrom_succ_of_step_none fs absPath n
          (canonStep_none fs absPath _ (habove (n + 1) (Nat.lt_succ_of_le hn) hlen))]
        exact ih (Nat.le_of_succ_le hlen)
    exact aux absPath.length (Nat.le_of_lt hk) le_rfl

/-- A file system on which every probe fails. -/
def fsAllFail : FS where
  statOk := fun _ => false
  realpathOf := fun _ => none

/-- A file system where only `/` and `/a` exist, and `/a` is a symlink to
`/b`. -/
def fsSymlink : FS where
  statOk := fun p => decide (p = [] ∨ p = ["a"])
  realpathOf := fun p => if p = ["a"] then some ["b"] else some p

/-- Witness for C6: the inaccessible fall-back and the walk-up-and-reappend
behavior at concrete inputs. -/
theorem claim_C6_witness :
    canonicalizePossiblyMissingPath fsAllFail ["x", "y"] = ["x", "y"] ∧
    canonicalizePossiblyMissingPath fsSymlink ["a", "c"] = ["b", "c"] := by
  constructor
  · exact (claim_C6 fsAllFail ["x", "y"]).2.1 (fun k _ => rfl)
  · refine ((claim_C6 fsSymlink ["a", "c"]).2.2 1 ["b"] (by decide) (by decide)
      ?_).trans (by decide)
    intro j h1 h2
    simp only [List.length_cons, List.length_nil] at h2
    have hj : j = 2 := by omega
    subst hj
    rfl

/-- Character-level model of the JavaScript `s.split("/")`. -/
def splitSlashGo : List Char → List Char → List String
  | acc, [] => [String.mk acc.reverse]
  | acc, c :: cs =>
    if c = '/' then String.mk acc.reverse :: splitSlashGo [] cs
    else splitSlashGo (c :: acc) cs

/-- Split a string at `/` separators. -/
def splitSlash (s : String) : List String :=
  splitSlashGo [] s.data

/-- Source `expandUserPath`: strip a leading `@`, then expand `~` and `~/`
against the user's home directory. -/
def expandUserPath (home : String) (p : String) : String :=
  let noAt := if strStartsWith p "@" then strDrop p 1 else p
  if noAt = "~" then home
  else if strStartsWith noAt "~/" then home ++ "/" ++ strDrop noAt 2
  else noAt

/-- Segment-level model of POSIX `resolve(cwd, p)`: an absolute `p` restarts
at the file system root, a relative one starts at `cwd`; normalization drops
empty and `.` segments and pops on `..` (clamping at the root). -/
def resolveStr (cwd : FsPath) (p : String) : FsPath :=
  (splitSlash p).foldl
    (fun acc seg =>
      if seg = "" ∨ seg = "." then acc
      else if seg = ".." then acc.dropLast
      else acc ++ [seg])
    (if isAbsoluteStr p then [] else cwd)

/-- Render a segment path back to its absolute string form. -/
def renderPath (p : FsPath) : String :=
  "/" ++ joinWith "/" p

/-- The kinds of tool calls the interception hook distinguishes. -/
inductive ToolKind where
  | write
  | edit
  | other
deriving DecidableEq, Repr

/-- Outcome of the `tool_call` interception hook: no objection, or a block
decision carrying a human-readable reason (denial is returned, not thrown). -/
inductive ToolDecision where
  | allow
  | block (reason : String)
deriving DecidableEq, Repr

/-- The expanded, resolved, canonicalized target of a write/edit request. -/
def canonTarget (fs : FS) (home : String) (cwd : FsPath) (raw : String) : FsPath :=
  canonicalizePossiblyMissingPath fs (resolveStr cwd (expandUserPath home raw))

/-- The `tool_call` event handler: yolo objects to nothing; read-only blocks
write and edit outright; read-write blocks write and edit whose canonical
target is not inside `rootDirReal`; other tools always pass. -/
def toolCallHandler (mode : SandboxMode) (fs : FS) (home : String)
    (rootDirReal : FsPath) (cwd : FsPath) (tool : ToolKind) (rawPath : String) :
    ToolDecision :=
  if mode = SandboxMode.yolo then ToolDecision.allow
  else
    match tool with
    | ToolKind.write =>
      if mode = SandboxMode.readOnly then
        ToolDecision.block "pi-sandbox is in read-only mode (write blocked)."
      else
        if isPathInsideRoot rootDirReal (canonTarget fs home cwd rawPath) then
          ToolDecision.allow
        else
          ToolDecision.block
            ("Writes are only allowed under: " ++ renderPath rootDirReal ++
              "\nRequested: " ++ rawPath ++
              "\nResolved: " ++ renderPath (canonTarget fs home cwd rawPath))
    | ToolKind.edit =>
      if mode = SandboxMode.readOnly then
        ToolDecision.block "pi-sandbox is in read-only mode (edit blocked)."
      else
        if isPathInsideRoot rootDirReal (canonTarget fs home cwd rawPath) then
          ToolDecision.allow
        else
          ToolDecision.block
            ("Edits are only allowed under: " ++ renderPath rootDirReal ++
              "\nRequested: " ++ rawPath ++
              "\nResolved: " ++ renderPath (canonTarget fs home cwd rawPath))
    | ToolKind.other => ToolDecision.allow

/-- C3: in read-only mode every write and every edit tool call is denied,
for every requested path, with the structured read-only reason, returned as a
block decision (the handler is a total function into `ToolDecision`, so
denial is never an exception). -/
theorem claim_C3 (fs : FS) (home : String) (root cwd : FsPath) (raw : String)
    (tool : ToolKind) (h : tool = ToolKind.write ∨ tool = ToolKind.edit) :
    toolCallHandler SandboxMode.readOnly fs home root cwd tool raw =
      ToolDecision.block
        (if tool = ToolKind.write then
          "pi-sandbox is in read-only mode (write blocked)."
         else "pi-sandbox is in read-only mode (edit blocked).") := by
  rcases h with h | h <;> subst h <;> rfl

/-- Witness for C3 on both tools at a concrete path. -/
theorem claim_C3_witness :
    toolCallHandler SandboxMode.readOnly fsSymlink "/h" ["r"] ["r"] ToolKind.write "x" =
      ToolDecision.block "pi-sandbox is in read-only mode (write blocked)." ∧
    toolCallHandler SandboxMode.readOnly fsSymlink "/h" ["r"] ["r"] ToolKind.edit "x" =
      ToolDecision.block "pi-sandbox is in read-only mode (edit blocked)." :=
  ⟨claim_C3 fsSymlink "/h" ["r"] ["r"] "x" ToolKind.write (Or.inl rfl),
   claim_C3 fsSymlink "/h" ["r"] ["r"] "x" ToolKind.edit (Or.inr rfl)⟩

/-- C4: in yolo mode the interception hook returns no objection for every
tool call and every path, and the bash tool delegates the user's command
unwrapped. -/
theorem claim_C4 (fs : FS) (home : String) (root cwd : FsPath)
    (tool : ToolKind) (raw : String) (bwrapPath : Option String)
    (rootS cwdS command : String) (extras : List String) :
    toolCallHandler SandboxMode.yolo fs home root cwd tool raw =
      ToolDecision.allow ∧
    bashExecute SandboxMode.yolo bwrapPath rootS extras cwdS command =
      BashAction.delegate command := by
  constructor
  · rfl
  · rfl

/-- C1 (amended): in read-write mode a write or edit tool call is allowed iff
its expanded, resolved, canonicalized target path lies inside `rootDirReal`
(extra writable directories and the system temporary directory are writable
only through sandboxed bash, not through the write/edit tools); otherwise it
is denied with a reason naming the permitted root, the original requested
path, and the resolved canonical path. -/
theorem claim_C1 (fs : FS) (home : String) (root cwd : FsPath) (raw : String)
    (tool : ToolKind) (h : tool = ToolKind.write ∨ tool = ToolKind.edit) :
    (toolCallHandler SandboxMode.readWrite fs home root cwd tool raw =
        ToolDecision.allow ↔
      isPathInsideRoot root (canonTarget fs home cwd raw) = true) ∧
    (isPathInsideRoot root (canonTarget fs home cwd raw) = false →
      toolCallHandler SandboxMode.readWrite fs home root cwd tool raw =
        ToolDecision.block
          ((if tool = ToolKind.write then "Writes are only allowed under: "
            else "Edits are only allowed under: ") ++ renderPath root ++
            "\nRequested: " ++ raw ++
            "\nResolved: " ++ renderPath (canonTarget fs home cwd raw))) := by
  rcases h with h | h <;> subst h <;>
    rcases Bool.eq_false_or_eq_true (isPathInsideRoot root (canonTarget fs home cwd raw))
      with hin | hin <;>
    simp [toolCallHandler, hin]

/-- A file system in which every path exists and is already canonical. -/
def fsIdentity : FS where
  statOk := fun _ => true
  realpathOf := fun p => some p

/-- Witness for C1 (amended): a path under the root is allowed. -/
theorem claim_C1_witness :
    toolCallHandler SandboxMode.readWrite fsIdentity "/h" [] [] ToolKind.write "/x" =
      ToolDecision.allow :=
  (claim_C1 fsIdentity "/h" [] [] "/x" ToolKind.write (Or.inl rfl)).1.mpr (by decide)

/-- Counterexample for C1 as stated: a write targeting `/tmp/foo.txt` — a
path inside the system temporary directory — is denied in read-write mode,
although the claim says such a path is allowed. -/
theorem claim_C1_counterexample :
    isPathInsideRoot ["tmp"]
        (canonTarget fsIdentity "/home/u" ["home", "u", "proj"] "/tmp/foo.txt") =
      true ∧
    toolCallHandler SandboxMode.readWrite fsIdentity "/home/u"
        ["home", "u", "proj"] ["home", "u", "proj"] ToolKind.write "/tmp/foo.txt" =
      ToolDecision.block
        "Writes are only allowed under: /home/u/proj\nRequested: /tmp/foo.txt\nResolved: /tmp/foo.txt" := by
  constructor
  · decide
  · decide

/-- A canonical path segment: nonempty, not a parent-traversal marker, and
free of the separator character. -/
def validSeg (s : String) : Bool :=
  decide (s ≠ "" ∧ s ≠ ".." ∧ '/' ∉ s.data)

/-- A canonical absolute path: every segment is valid. -/
def validPath (p : FsPath) : Bool :=
  p.all validSeg

theorem strStartsWith_iff (s p : String) :
    strStartsWith s p = true ↔ p.data <+: s.data := by
  simp only [strStartsWith]
  exact List.isPrefixOf_iff_prefix

theorem data_ne_nil_of_ne_empty (s : String) (h : s ≠ "") : s.data ≠ [] := by
  intro hc
  exact h (String.ext (hc.trans rfl))

theorem joinWith_cons_data (x : String) (l : List String) (hne : l ≠ []) :
    (joinWith "/" (x :: l)).data = x.data ++ '/' :: (joinWith "/" l).data := by
  cases l with
  | nil => exact absurd rfl hne
  | cons y ys =>
    show (x ++ "/" ++ joinWith "/" (y :: ys)).data = _
    rw [String.data_append, String.data_append]
    simp

theorem not_prefix_dotdotslash (h : String) (t : List Char)
    (hne : h.data ≠ []) (hdd : h ≠ "..") (hslash : '/' ∉ h.data)
    (ht : t = [] ∨ ∃ u, t = '/' :: u) :
    ¬ (['.', '.', '/'] <+: (h.data ++ t)) := by
  intro hpre
  obtain ⟨u, hu⟩ := hpre
  cases hd : h.data with
  | nil => exact hne hd
  | cons c1 tl1 =>
    rw [hd] at hu
    cases tl1 with
    | nil =>
      simp only [List.cons_append, List.nil_append] at hu
      injection hu with hc1 hrest
      rcases ht with rfl | ⟨v, rfl⟩
      · exact absurd hrest (by simp)
      · injection hrest with hc hv
        exact absurd hc (by decide)
    | cons c2 tl2 =>
      cases tl2 with
      | nil =>
        simp only [List.cons_append, List.nil_append] at hu
        injection hu with hc1 hu2
        injection hu2 with hc2 hu3
        apply hdd
        apply String.ext
        rw [hd, ← hc1, ← hc2]
      | cons c3 tl3 =>
        simp only [List.cons_append, List.nil_append] at hu
        injection hu with hc1 hu2
        injection hu2 with hc2 hu3
        injection hu3 with hc3 hu4
        apply hslash
        rw [hd, ← hc3]
        simp

theorem not_prefix_slash (h : String) (t : List Char)
    (hne : h.data ≠ []) (hslash : '/' ∉ h.data) :
    ¬ (['/'] <+: (h.data ++ t)) := by
  intro hpre
  obtain ⟨u, hu⟩ := hpre
  cases hd : h.data with
  | nil => exact hne hd
  | cons c1 tl1 =>
    rw [hd] at hu
    simp only [List.cons_append, List.nil_append] at hu
    injection hu with hc1 hrest
    apply hslash
    rw [hd, ← hc1]
    simp

theorem relativeSegs_head_shape (a b : FsPath) (h : String) (rest : List String)
    (heq : relativeSegs a b = h :: rest) : h = ".." ∨ h ∈ b := by
  rw [relativeSegs] at heq
  rcases Nat.eq_zero_or_pos (a.length - commonPrefixLen a b) with hz | hp
  · rw [hz, List.replicate_zero, List.nil_append] at heq
    right
    exact List.drop_subset _ _ (heq ▸ List.mem_cons_self h rest)
  · obtain ⟨k, hk⟩ := Nat.exists_eq_succ_of_ne_zero (Nat.pos_iff_ne_zero.mp hp)
    rw [hk, List.replicate_succ, List.cons_append] at heq
    injection heq with h1 h2
    exact Or.inl h1.symm

theorem isPathInsideRoot_of_rel_empty (a b : FsPath) (h : relativeStr a b = "") :
    isPathInsideRoot a b = true := by
  simp only [isPathInsideRoot]
  rw [if_pos h]

theorem isPathInsideRoot_of_rel_dotdot (a b : FsPath)
    (h : relativeStr a b = "..") : isPathInsideRoot a b = false := by
  simp only [isPathInsideRoot]
  rw [if_neg (by rw [h] ; decide), if_pos h]

theorem isPathInsideRoot_of_ddslash (a b : FsPath)
    (h : strStartsWith (relativeStr a b) "../" = true) :
    isPathInsideRoot a b = false := by
  have hne : relativeStr a b ≠ "" := by
    intro hc
    rw [hc] at h
    exact absurd h (by decide)
  by_cases hdd : relativeStr a b = ".."
  · exact isPathInsideRoot_of_rel_dotdot a b hdd
  · simp only [isPathInsideRoot]
    rw [if_neg hne, if_neg hdd, if_pos h]

theorem isPathInsideRoot_of_guards (a b : FsPath)
    (h1 : relativeStr a b ≠ "") (h2 : relativeStr a b ≠ "..")
    (h3 : strStartsWith (relativeStr a b) "../" = false)
    (h4 : isAbsoluteStr (relativeStr a b) = false) :
    isPathInsideRoot a b = true := by
  simp only [isPathInsideRoot]
  rw [if_neg h1, if_neg h2, if_neg (by simp [h3]), if_neg (by simp [h4])]

theorem insideRoot_cases (a b : FsPath) (hb : validPath b = true) :
    (relativeSegs a b = [] ∧ relativeStr a b = "") ∨
    ((relativeSegs a b).head? = some ".." ∧ relativeStr a b ≠ "" ∧
      (relativeStr a b = ".." ∨ strStartsWith (relativeStr a b) "../" = true)) ∨
    (relativeSegs a b ≠ [] ∧ (relativeSegs a b).head? ≠ some ".." ∧
      relativeStr a b ≠ "" ∧ relativeStr a b ≠ ".." ∧
      strStartsWith (relativeStr a b) "../" = false ∧
      isAbsoluteStr (relativeStr a b) = false) := by
  cases hrel : relativeSegs a b with
  | nil =>
    left
    refine ⟨rfl, ?_⟩
    simp only [relativeStr]
    rw [hrel]
    rfl
  | cons h rest =>
    rcases relativeSegs_head_shape a b h rest hrel with hdd | hmem
    · subst hdd
      right
      left
      cases rest with
      | nil =>
        have hstr : relativeStr a b = ".." := by
          simp only [relativeStr]
          rw [hrel]
          rfl
        exact ⟨rfl, by rw [hstr] ; decide, Or.inl hstr⟩
      | cons r rs =>
        have hdata : (relativeStr a b).data =
            '.' :: '.' :: '/' :: (joinWith "/" (r :: rs)).data := by
          simp only [relativeStr]
          rw [hrel, joinWith_cons_data ".." (r :: rs) (by simp)]
          rfl
        refine ⟨rfl, ?_, Or.inr ?_⟩
        · intro hc
          rw [hc] at hdata
          exact absurd hdata.symm (by simp)
        · rw [strStartsWith_iff]
          exact ⟨(joinWith "/" (r :: rs)).data, by rw [hdata] ; rfl⟩
    · right
      right
      have hv := of_decide_eq_true (List.all_eq_true.mp hb h hmem)
      obtain ⟨hv1, hv2, hv3⟩ := hv
      have hdne : h.data ≠ [] := data_ne_nil_of_ne_empty h hv1
      cases rest with
      | nil =>
        have hstr : relativeStr a b = h := by
          simp only [relativeStr]
          rw [hrel]
          rfl
        refine ⟨by simp, by simp [hv2], ?_, ?_, ?_, ?_⟩
        · rw [hstr]
          exact hv1
        · rw [hstr]
          exact hv2
        · rw [Bool.eq_false_iff]
          intro htrue
          have hpre := (strStartsWith_iff _ _).mp htrue
          rw [hstr] at hpre
          exact not_prefix_dotdotslash h [] hdne hv2 hv3 (Or.inl rfl)
            (by simpa using hpre)
        · rw [Bool.eq_false_iff]
          intro htrue
          have hpre := (strStartsWith_iff _ _).mp htrue
          rw [hstr] at hpre
          exact not_prefix_slash h [] hdne hv3 (by simpa using hpre)
      | cons r rs =>
        have hdata : (relativeStr a b).data =
            h.data ++ '/' :: (joinWith "/" (r :: rs)).data := by
          simp only [relativeStr]
          rw [hrel, joinWith_cons_data h (r :: rs) (by simp)]
        refine ⟨by simp, by simp [hv2], ?_, ?_, ?_, ?_⟩
        · intro hc
          rw [hc] at hdata
          exact absurd hdata.symm (by simp)
        · intro hc
          rw [hc] at hdata
          have hmemSlash : '/' ∈ (".." : String).data := by
            rw [hdata]
            exact List.mem_append_right _ (List.mem_cons_self _ _)
          exact absurd hmemSlash (by decide)
        · rw [Bool.eq_false_iff]
          intro htrue
          have hpre := (strStartsWith_iff _ _).mp htrue
          rw [hdata] at hpre
          exact not_prefix_dotdotslash h ('/' :: (joinWith "/" (r :: rs)).data)
            hdne hv2 hv3 (Or.inr ⟨_, rfl⟩) hpre
        · rw [Bool.eq_false_iff]
          intro htrue
          have hpre := (strStartsWith_iff _ _).mp htrue
          rw [hdata] at hpre
          exact not_prefix_slash h ('/' :: (joinWith "/" (r :: rs)).data)
            hdne hv3 hpre

/-- C5: for canonical paths, `isPathInsideRoot root target` is true iff the
target equals the root, or the relative form from root to target neither
starts with a parent-traversal segment (`..` alone or a leading `../`) nor is
itself an absolute path; in particular the root is inside itself, and a
relative form of exactly `..` is outside. -/
theorem claim_C5 (root target : FsPath) (htarget : validPath target = true) :
    (isPathInsideRoot root target = true ↔
      (target = root ∨
        (¬(relativeStr root target = ".." ∨
            strStartsWith (relativeStr root target) "../" = true) ∧
          isAbsoluteStr (relativeStr root target) = false))) ∧
    isPathInsideRoot root root = true ∧
    (relativeSegs root target = [".."] → isPathInsideRoot root target = false) := by
  refine ⟨?_, ?_, ?_⟩
  · rcases insideRoot_cases root target htarget with
      ⟨h1, h2⟩ | ⟨h1, h2, h3⟩ | ⟨h1, h2, h3, h4, h5, h6⟩
    · have heq : root = target := (relativeSegs_eq_nil_iff root target).mp h1
      constructor
      · intro _
        exact Or.inl heq.symm
      · intro _
        exact isPathInsideRoot_of_rel_empty root target h2
    · have hfalse : isPathInsideRoot root target = false := by
        rcases h3 with h3 | h3
        · exact isPathInsideRoot_of_rel_dotdot root target h3
        · exact isPathInsideRoot_of_ddslash root target h3
      constructor
      · intro htrue
        rw [hfalse] at htrue
        exact absurd htrue (by decide)
      · intro hrhs
        exfalso
        rcases hrhs with hrhs | hrhs
        · have hnil : relativeSegs root target = [] :=
            (relativeSegs_eq_nil_iff root target).mpr hrhs.symm
          rw [hnil] at h1
          exact absurd h1 (by simp)
        · exact hrhs.1 h3
    · have htrue := isPathInsideRoot_of_guards root target h3 h4 h5 h6
      constructor
      · intro _
        refine Or.inr ⟨fun hc => ?_, h6⟩
        rcases hc with hc | hc
        · exact h4 hc
        · rw [hc] at h5
          exact absurd h5 (by decide)
      · intro _
        exact htrue
  · apply isPathInsideRoot_of_rel_empty
    simp only [relativeStr]
    rw [relativeSegs_self]
    rfl
  · intro hdd
    apply isPathInsideRoot_of_rel_dotdot
    simp only [relativeStr]
    rw [hdd]
    rfl

/-- Witness for C5: a child of the root is inside; the parent of the root
(relative form exactly `..`) is outside. -/
theorem claim_C5_witness :
    isPathInsideRoot ["r"] ["r", "s"] = true ∧
    isPathInsideRoot ["r", "s"] ["r"] = false := by
  constructor
  · exact (claim_C5 ["r"] ["r", "s"] (by decide)).1.mpr (by decide)
  · exact (claim_C5 ["r", "s"] ["r"] (by decide)).2.2 (by decide)
